import Mathlib

/-!
Shallow embedding of the litstack route-composition core
(`src/lib/compiler/classes/compiler.class.ts`): module unpacking, metadata
resolution, route compilation and the request-handler adapter.

The compiler itself lives under `src/`; the metadata store (`Injector`
from the external `super-injector` package), the `HttpResponse` wrapper
class and the express server facade are collaborators whose code is not
under `src/`, so those parts are modelled from the specification and are
marked as such in their doc comments.

JavaScript truthiness matters in two spots (`parts.filter(part => part)`
in `getPath`, and `if (reqMethod)` in `addRouteFromMethod`): an absent
value (`null`/`undefined`) and the empty string are both falsy, which the
`truthy` predicate captures on `Option String`.
-/

namespace Litstack

/-- JavaScript truthiness of a possibly-absent string: `null`/`undefined`
and the empty string are falsy, every other string is truthy. -/
def truthy : Option String → Bool
  | some s => s ≠ ""
  | none => false

/-- Modelled from the spec: the Metadata Store's records for one target
(§4.1, the external `super-injector` package). Class-scope records map a
key to a value; method-scope records map a (method name, key) pair to a
value. -/
structure MetaTarget where
  classMeta : List (String × String)
  methodMeta : List (String × String × String)
  deriving Repr, DecidableEq

/-- Class-scope lookup: the value recorded for `key` on the target, if any. -/
def lookupClass (t : MetaTarget) (key : String) : Option String :=
  (t.classMeta.find? (fun e => e.1 == key)).map (fun e => e.2)

/-- Method-scope lookup: the value recorded for `key` on method `scope`
of the target, if any. -/
def lookupMethod (t : MetaTarget) (scope : String) (key : String) : Option String :=
  (t.methodMeta.find? (fun e => e.1 == scope && e.2.1 == key)).map (fun e => e.2.2)

/-- Modelled from the spec: `Injector.get(target, key, default?, methodScope?)`
resolves in order (1) exact method-scope record, (2) class-scope record,
(3) supplied default, (4) absent result (§4.1). The `super-injector`
package is not under `src/`. -/
def Injector.get (t : MetaTarget) (key : String) (dflt : Option String)
    (scope : Option String := none) : Option String :=
  match scope with
  | some m => ((lookupMethod t m key).orElse (fun _ => lookupClass t key)).orElse (fun _ => dflt)
  | none => (lookupClass t key).orElse (fun _ => dflt)

/-- Modelled from the spec: `Injector.getAll(target, methodScope)` returns
the mapping of key to value for every key recorded for that method scope
(§4.1). -/
def Injector.getAll (t : MetaTarget) (scope : String) : List (String × String) :=
  (t.methodMeta.filter (fun e => e.1 == scope)).map (fun e => (e.2.1, e.2.2))

/-- An incoming request, kept abstract as its raw payload. -/
abbrev Request := String

/-- The server facade's raw response object, kept abstract. -/
abbrev RawResponse := String

/-- Modelled from the spec: the decorated response object built by the
request-handler adapter (`HttpResponse` in `response.class.ts`, not under
`src/`): it wraps the raw response together with the pre-resolved
response-shaping metadata (§4.4). -/
structure HttpResponse where
  raw : RawResponse
  meta : List (String × String)

/-- What a handler invocation does: either it completes with a value or it
raises a failure, which the adapter must propagate unmodified. -/
abbrev HandlerResult := Except String String

/-- A component class (`ILitComponent`): its own prototype property names
(as enumerated by `Object.getOwnPropertyNames`), its metadata records, and
the behaviour of each of its methods. The body receives the method name,
the request and the decorated response. -/
structure ILitComponent where
  props : List String
  meta : MetaTarget
  body : String → Request → HttpResponse → HandlerResult

/-- Modelled from the spec: the activation mechanism (`Injector.resolve`)
returns a usable instance of the component class; construction details are
opaque and metadata lookups on the instance resolve to the class's records
(§4.3, §6), so on this representation it is the identity. -/
def Injector.resolve (c : ILitComponent) : ILitComponent := c

/-- A module descriptor (`ILitModule`): the class-scope `path` record
(`none` when absent), the exported components and the imported child
modules. The `path`, `exports` and `imports` class-scope records that
`@LitModule` attaches are inlined as fields. -/
inductive ILitModule : Type where
  | mk (path : Option String) (exports : List ILitComponent)
       (imports : List ILitModule)

/-- Class-scope `path` record of a module. -/
def ILitModule.path : ILitModule → Option String
  | .mk p _ _ => p

/-- Exported components of a module. -/
def ILitModule.exports : ILitModule → List ILitComponent
  | .mk _ e _ => e

/-- Imported child modules of a module. -/
def ILitModule.imports : ILitModule → List ILitModule
  | .mk _ _ i => i

/-- One registration made on the express app by `addRoute`: HTTP verb,
full path as passed to express, and the component instance / method name
the handler closure is bound to. -/
structure Route where
  method : String
  path : String
  component : ILitComponent
  handlerName : String

/-- The ordered sequence of registrations made on the express app. -/
abbrev RouteTable := List Route

/-- Embeds `getPath`: keep the truthy parts (dropping `null`, `undefined`
and empty strings) and join them with `/`. -/
def getPath (parts : List (Option String)) : String :=
  String.intercalate "/" ((parts.filter truthy).map (fun p => p.getD ""))

/-- Embeds `getMethodList`: own prototype property names minus the
implicit `constructor`. -/
def getMethodList (c : ILitComponent) : List String :=
  c.props.filter (fun name => name ≠ "constructor")

/-- Embeds `getHandler`: the produced closure gathers the method's
response-shaping metadata with the store's bulk lookup, wraps the raw
response and that metadata into a decorated response, and invokes the
original method with the request and the decorated response. -/
def getHandler (aComponent : ILitComponent) (name : String) :
    Request → RawResponse → HandlerResult :=
  fun req res =>
    let meta := Injector.getAll aComponent.meta name
    aComponent.body name req (HttpResponse.mk res meta)

/-- Embeds `addRoute`: register `'/' + path` for the verb on the app,
bound to the handler for `(aComponent, name)`. Registration order is the
list order. -/
def addRoute (method : String) (path : String) (aComponent : ILitComponent)
    (name : String) (tbl : RouteTable) : RouteTable :=
  tbl ++ [⟨method, "/" ++ path, aComponent, name⟩]

/-- Embeds `addRouteFromMethod`: resolve a fresh instance, look up the
method-scoped HTTP verb with no default; if it is truthy, extend the path
with the method-scoped sub-path and register the route, otherwise skip. -/
def addRouteFromMethod (Component : ILitComponent) (method : String)
    (path : String) (tbl : RouteTable) : RouteTable :=
  let aComponent := Injector.resolve Component
  let reqMethod := Injector.get aComponent.meta "method" none (some method)
  if truthy reqMethod then
    addRoute (reqMethod.getD "")
      (getPath [some path, Injector.get aComponent.meta "path" none (some method)])
      aComponent method tbl
  else tbl

/-- Embeds `addExportedComponents`: for each exported component, in order,
try to add a route from each of its methods, in order. -/
def addExportedComponents (path : String) (includes : List ILitComponent)
    (tbl : RouteTable) : RouteTable :=
  includes.foldl
    (fun t c => (getMethodList c).foldl (fun t' m => addRouteFromMethod c m path t') t)
    tbl

mutual

/-- Embeds `unpack`: compute the current path by joining the inherited
path with the module's own class-scope `path` record (default `""`),
register the module's exports at the current path, then unpack each of
the imports in declaration order with the current path as the new
inherited prefix. -/
def unpack : ILitModule → String → RouteTable → RouteTable
  | .mk p exps imps, inputPath, tbl =>
    let path := getPath [some inputPath, some (p.getD "")]
    unpackList imps path (addExportedComponents path exps tbl)

/-- The `imports.forEach(Child => this.unpack(Child, path))` loop of
`unpack`, made explicit. -/
def unpackList : List ILitModule → String → RouteTable → RouteTable
  | [], _, tbl => tbl
  | child :: rest, path, tbl => unpackList rest path (unpack child path tbl)

end

/-- The compiler object's mutable state: the middleware installed by
`addParser`, the route registrations on the express app, and the port the
server was told to listen on (`none` before `listen`). -/
structure ServiceCompiler where
  middleware : List String
  routes : RouteTable
  server : Option String

/-- Embeds `addParser`: install the urlencoded and json body parsers. -/
def addParser (s : ServiceCompiler) : ServiceCompiler :=
  { s with middleware := s.middleware ++ ["urlencoded", "json"] }

/-- Embeds `bootstrap`: override the port with `process.env.port` when
that is truthy (JavaScript `||`), install the body parsers, unpack the
parent module with the default inherited path `""`, and listen. -/
def bootstrap (Parent : ILitModule) (port : String) (envPort : Option String)
    (s : ServiceCompiler) : ServiceCompiler :=
  let port' := if truthy envPort then envPort.getD "" else port
  let s1 := addParser s
  let s2 := { s1 with routes := unpack Parent "" s1.routes }
  { s2 with server := some port' }

/-- Modelled from the spec: the Server Facade's dispatch (express, an
external collaborator). Later-registered routes with an identical
verb+path silently shadow earlier ones (§4.2, §7), so the registration
that serves a request is the last one matching its verb and path. -/
def serves (tbl : RouteTable) (verb : String) (path : String) : Option Route :=
  (tbl.filter (fun r => r.method == verb && r.path == path)).getLast?

/-- A module node in an import graph that may contain cycles. The tree
type `ILitModule` cannot represent a cyclic `imports` chain, so for the
termination analysis of `unpack` the same code is embedded over graphs:
nodes are numbered and `imports` holds node numbers. -/
structure GraphModule where
  path : Option String
  exports : List ILitComponent
  imports : List Nat

mutual

/-- The `unpack` walk over an import graph, with explicit fuel bounding
the recursion depth: `none` means the walk exceeded the bound. `unpack`
itself has no cycle detection, so nontermination on a graph is rendered
as exhausting every finite fuel. Apart from the fuel, the body is the
same embedding of `unpack` as the tree version. -/
def unpackG : Nat → (Nat → GraphModule) → Nat → String → RouteTable → Option RouteTable
  | 0, _, _, _, _ => none
  | fuel + 1, g, n, inputPath, tbl =>
    let node := g n
    let path := getPath [some inputPath, some (node.path.getD "")]
    unpackGList fuel g node.imports path (addExportedComponents path node.exports tbl)

/-- The imports loop of `unpackG`, sequencing the children and giving up
as soon as one child exceeds the fuel bound. -/
def unpackGList : Nat → (Nat → GraphModule) → List Nat → String → RouteTable → Option RouteTable
  | _, _, [], _, tbl => some tbl
  | fuel, g, child :: rest, path, tbl =>
    match unpackG fuel g child path tbl with
    | none => none
    | some t => unpackGList fuel g rest path t

end

/-- A nonempty chain of import edges from one graph node to another. -/
inductive ImportPath (g : Nat → GraphModule) : Nat → Nat → Prop where
  | single {a b : Nat} : b ∈ (g a).imports → ImportPath g a b
  | cons {a b c : Nat} : b ∈ (g a).imports → ImportPath g b c → ImportPath g a c

/-- Node `b` is reachable from node `a` along import edges (in zero or
more steps). -/
def Reaches (g : Nat → GraphModule) (a b : Nat) : Prop :=
  a = b ∨ ImportPath g a b

/-- A method body that always succeeds, for components whose behaviour is
irrelevant to the claim at hand. -/
def okBody : String → Request → HttpResponse → HandlerResult :=
  fun _ _ _ => .ok ""

/-- A component whose single method `m` carries a method-scoped `method`
record with value `get` and no sub-path. -/
def compBare : ILitComponent :=
  ⟨["m"], ⟨[], [("m", "method", "get")]⟩, okBody⟩

/-- A component with a class-scope `method` record (value `get`) and no
method-scope records at all, on a single method `m`. -/
def compClassVerb : ILitComponent :=
  ⟨["m"], ⟨[("method", "get")], []⟩, okBody⟩

/-- A component whose method `getStuff` carries verb `get` and sub-path
`stuff`. -/
def compStuff : ILitComponent :=
  ⟨["getStuff"], ⟨[], [("getStuff", "method", "get"), ("getStuff", "path", "stuff")]⟩, okBody⟩

/-- Component A of the shadowing scenario: method `handleA`, verb `get`,
no sub-path. -/
def compA : ILitComponent :=
  ⟨["handleA"], ⟨[], [("handleA", "method", "get")]⟩, okBody⟩

/-- Component B of the shadowing scenario: method `handleB`, verb `get`,
no sub-path. -/
def compB : ILitComponent :=
  ⟨["handleB"], ⟨[], [("handleB", "method", "get")]⟩, okBody⟩

/-- The shadowing scenario's root module: path `x`, exports A, imports a
child module with an empty path exporting B; both A's and B's methods
resolve to `GET /x`. -/
def rootShadow : ILitModule :=
  .mk (some "x") [compA] [.mk none [compB] []]

/-- A component whose method `boom` always raises, and which carries two
method-scoped response-shaping records for `boom`. -/
def compBoom : ILitComponent :=
  ⟨["boom"], ⟨[], [("boom", "status", "418"), ("boom", "contentType", "text")]⟩,
    fun _ _ _ => .error "kaboom"⟩

/-- A graph whose every node has no imports: trivially acyclic. -/
def gLeaf : Nat → GraphModule := fun _ => ⟨none, [], []⟩

/-- A graph whose node 0 imports itself: a one-edge cycle. -/
def gLoop : Nat → GraphModule := fun _ => ⟨none, [], [0]⟩

/-- The non-empty segments of a list, joined with a slash: the claim's
description of a full path. -/
def joinedNonempty (segs : List String) : String :=
  String.intercalate "/" (segs.filter (fun s => s ≠ ""))

/-- Folding `getPath` pairwise along a chain of segments, starting from an
inherited prefix: this is how `unpack` accumulates the path while
descending a chain of modules. -/
def pathAlong (input : String) (segs : List String) : String :=
  segs.foldl (fun p seg => getPath [some p, some seg]) input

end Litstack

namespace Litstack

/-! Helper lemmas: every registration primitive only appends to the route
table, so each can be decomposed as old table plus emitted routes. -/

theorem addRouteFromMethod_append (c : ILitComponent) (m p : String) (tbl : RouteTable) :
    addRouteFromMethod c m p tbl = tbl ++ addRouteFromMethod c m p [] := by
  by_cases h : truthy (Injector.get c.meta "method" none (some m)) <;>
    simp [addRouteFromMethod, addRoute, Injector.resolve, h]

theorem foldl_append_of_app {α : Type} (f : α → RouteTable → RouteTable)
    (hf : ∀ a t, f a t = t ++ f a []) :
    ∀ (l : List α) (tbl : RouteTable),
      l.foldl (fun t a => f a t) tbl = tbl ++ l.foldl (fun t a => f a t) []
  | [], tbl => by simp
  | a :: l, tbl => by
    simp only [List.foldl_cons]
    rw [foldl_append_of_app f hf l (f a tbl), foldl_append_of_app f hf l (f a []),
        hf a tbl, List.append_assoc]

theorem methodsFold_append (c : ILitComponent) (path : String) (ms : List String)
    (tbl : RouteTable) :
    ms.foldl (fun t m => addRouteFromMethod c m path t) tbl
      = tbl ++ ms.foldl (fun t m => addRouteFromMethod c m path t) [] :=
  foldl_append_of_app (fun m t => addRouteFromMethod c m path t)
    (fun m t => addRouteFromMethod_append c m path t) ms tbl

theorem addExportedComponents_append (path : String) (cs : List ILitComponent)
    (tbl : RouteTable) :
    addExportedComponents path cs tbl = tbl ++ addExportedComponents path cs [] :=
  foldl_append_of_app
    (fun c t => (getMethodList c).foldl (fun t' m => addRouteFromMethod c m path t') t)
    (fun c t => methodsFold_append c path (getMethodList c) t) cs tbl

mutual

theorem unpack_eq_append : ∀ (m : ILitModule) (p : String) (tbl : RouteTable),
    unpack m p tbl = tbl ++ unpack m p []
  | .mk pa exps imps, p, tbl => by
    simp only [unpack]
    rw [unpackList_eq_append imps _ (addExportedComponents _ exps tbl),
        unpackList_eq_append imps _ (addExportedComponents _ exps []),
        addExportedComponents_append, List.append_assoc]

theorem unpackList_eq_append : ∀ (ms : List ILitModule) (p : String) (tbl : RouteTable),
    unpackList ms p tbl = tbl ++ unpackList ms p []
  | [], _, tbl => by simp [unpackList]
  | child :: rest, p, tbl => by
    simp only [unpackList]
    rw [unpackList_eq_append rest p (unpack child p tbl),
        unpackList_eq_append rest p (unpack child p []),
        unpack_eq_append child p tbl, List.append_assoc]

end

theorem unpackList_eq_flatten (ms : List ILitModule) (p : String) (tbl : RouteTable) :
    unpackList ms p tbl = tbl ++ (ms.map (fun m => unpack m p [])).flatten := by
  induction ms generalizing tbl with
  | nil => simp [unpackList]
  | cons child rest ih =>
    simp only [unpackList, List.map_cons, List.flatten_cons]
    rw [ih (unpack child p tbl), unpack_eq_append child p tbl, List.append_assoc]

end Litstack

namespace Litstack

theorem intercalate_go_append (sep : String) :
    ∀ (l : List String) (a b : String),
      String.intercalate.go (a ++ b) sep l = a ++ String.intercalate.go b sep l
  | [], a, b => rfl
  | c :: l, a, b => by
    show String.intercalate.go (a ++ b ++ sep ++ c) sep l = a ++ String.intercalate.go (b ++ sep ++ c) sep l
    rw [String.append_assoc a b sep, String.append_assoc a (b ++ sep) c,
        intercalate_go_append sep l a (b ++ sep ++ c)]

theorem intercalate_cons_cons (sep a b : String) (l : List String) :
    String.intercalate sep (a :: b :: l) = a ++ sep ++ String.intercalate sep (b :: l) := by
  show String.intercalate.go (a ++ sep ++ b) sep l = a ++ sep ++ String.intercalate.go b sep l
  exact intercalate_go_append sep l (a ++ sep) b

theorem append_slash_ne_empty (x s : String) : x ++ "/" ++ s ≠ "" := by
  intro h
  have hl := congrArg String.length h
  have h1 : ("/" : String).length = 1 := rfl
  simp [String.length_append, h1] at hl

theorem getPath_pair (a b : String) :
    getPath [some a, some b] =
      if b = "" then a else if a = "" then b else a ++ "/" ++ b := by
  by_cases hb : b = "" <;> by_cases ha : a = "" <;>
    simp [getPath, truthy, ha, hb, String.intercalate, String.intercalate.go]

theorem joinedNonempty_collapse (x s : String) (segs : List String) :
    joinedNonempty (getPath [some x, some s] :: segs) = joinedNonempty (x :: s :: segs) := by
  rw [getPath_pair]
  by_cases hs : s = ""
  · by_cases hx : x = "" <;> simp [joinedNonempty, hs, hx]
  · by_cases hx : x = ""
    · simp [joinedNonempty, hs, hx]
    · have hxs : ¬(x ++ "/" ++ s = "") := append_slash_ne_empty x s
      rw [if_neg hs, if_neg hx]
      unfold joinedNonempty
      rw [List.filter_cons, List.filter_cons, List.filter_cons]
      simp only [hxs, hs, hx, decide_False, Bool.not_false, if_true, decide_not]
      generalize List.filter (fun s => !decide (s = "")) segs = fs
      cases fs with
      | nil => rfl
      | cons a fs' =>
        rw [intercalate_cons_cons, intercalate_cons_cons "/" x s, intercalate_cons_cons "/" s a]
        simp [String.append_assoc]

theorem pathAlong_eq_joined (segs : List String) (x : String) :
    pathAlong x segs = joinedNonempty (x :: segs) := by
  induction segs generalizing x with
  | nil =>
    show x = joinedNonempty [x]
    by_cases hx : x = "" <;> simp [joinedNonempty, hx, String.intercalate, String.intercalate.go]
  | cons s segs ih =>
    show pathAlong (getPath [some x, some s]) segs = _
    rw [ih (getPath [some x, some s]), joinedNonempty_collapse]

end Litstack

namespace Litstack

theorem importPath_trans {g : Nat → GraphModule} {a b c : Nat}
    (h1 : ImportPath g a b) (h2 : ImportPath g b c) : ImportPath g a c := by
  induction h1 with
  | single h => exact ImportPath.cons h h2
  | cons h _ ih => exact ImportPath.cons h (ih h2)

theorem reaches_step {g : Nat → GraphModule} {start n m : Nat}
    (hr : Reaches g start n) (hm : m ∈ (g n).imports) : Reaches g start m := by
  cases hr with
  | inl h => exact Or.inr (h ▸ ImportPath.single hm)
  | inr h => exact Or.inr (importPath_trans h (ImportPath.single hm))

theorem unpackG_succeeds (g : Nat → GraphModule) (start : Nat) (rank : Nat → Nat)
    (hrank : ∀ n, Reaches g start n → ∀ m ∈ (g n).imports, rank m < rank n) :
    ∀ fuel n, Reaches g start n → rank n < fuel →
      ∀ p t, ∃ t', unpackG fuel g n p t = some t' := by
  intro fuel
  induction fuel with
  | zero => intro n _ hlt; omega
  | succ fuel ih =>
    intro n hn hlt p t
    have hlist : ∀ ns, (∀ m ∈ ns, Reaches g start m ∧ rank m < fuel) →
        ∀ p' t', ∃ t'', unpackGList fuel g ns p' t' = some t'' := by
      intro ns
      induction ns with
      | nil => intro _ p' t'; exact ⟨t', by simp [unpackGList]⟩
      | cons m ns ihns =>
        intro hms p' t'
        obtain ⟨t1, h1⟩ := ih m (hms m (by simp)).1 (hms m (by simp)).2 p' t'
        obtain ⟨t2, h2⟩ := ihns (fun m' hm' => hms m' (by simp [hm'])) p' t1
        exact ⟨t2, by simp [unpackGList, h1, h2]⟩
    have hsub : ∀ m ∈ (g n).imports, Reaches g start m ∧ rank m < fuel := by
      intro m hm
      refine ⟨reaches_step hn hm, ?_⟩
      have := hrank n hn m hm
      omega
    obtain ⟨t', h'⟩ := hlist (g n).imports hsub
      (getPath [some p, some ((g n).path.getD "")])
      (addExportedComponents (getPath [some p, some ((g n).path.getD "")]) (g n).exports t)
    exact ⟨t', by simp [unpackG, h']⟩

theorem unpackGList_none (g : Nat → GraphModule) (fuel : Nat) (c : Nat)
    (hc : ∀ p t, unpackG fuel g c p t = none) :
    ∀ ns, c ∈ ns → ∀ p t, unpackGList fuel g ns p t = none := by
  intro ns
  induction ns with
  | nil => intro h; cases h
  | cons a ns ihns =>
    intro hmem p t
    rcases List.mem_cons.mp hmem with heq | hmem'
    · subst heq; simp [unpackGList, hc p t]
    · cases h : unpackG fuel g a p t with
      | none => simp [unpackGList, h]
      | some t' => simp [unpackGList, h]; exact ihns hmem' p t'

theorem cycle_none (g : Nat → GraphModule) :
    ∀ fuel m, ImportPath g m m → ∀ p t, unpackG fuel g m p t = none := by
  intro fuel
  induction fuel with
  | zero => intro m _ p t; simp [unpackG]
  | succ fuel ih =>
    intro m hm p t
    cases hm with
    | single h =>
      have hc := ih m (ImportPath.single h)
      simp [unpackG]
      exact unpackGList_none g fuel m hc (g m).imports h _ _
    | cons h hp =>
      rename_i b
      have hbb : ImportPath g b b := importPath_trans hp (ImportPath.single h)
      have hc := ih b hbb
      simp [unpackG]
      exact unpackGList_none g fuel b hc (g m).imports h _ _

theorem reach_cycle_none (g : Nat → GraphModule) {a c : Nat}
    (hp : ImportPath g a c) :
    ImportPath g c c → ∀ fuel p t, unpackG fuel g a p t = none := by
  induction hp with
  | single h =>
    intro hcc fuel p t
    cases fuel with
    | zero => simp [unpackG]
    | succ fuel =>
      simp [unpackG]
      exact unpackGList_none g fuel _ (fun p' t' => cycle_none g fuel _ hcc p' t') _ h _ _
  | cons h _ ih =>
    intro hcc fuel p t
    cases fuel with
    | zero => simp [unpackG]
    | succ fuel =>
      simp [unpackG]
      exact unpackGList_none g fuel _ (fun p' t' => ih hcc fuel p' t') _ h _ _

end Litstack

namespace Litstack

/-- C1: `unpack(module, inheritedPath)` computes the current path by
joining the inherited path with the module's own path, registers every
component in the module's exports at the current path before unpacking
any imported child module, and then recurses into the imports in
declaration order, passing the current path as the new inherited prefix
to each child. -/
theorem claim_C1_unpack_order (p : Option String) (exps : List ILitComponent)
    (imps : List ILitModule) (inputPath : String) (tbl : RouteTable) :
    unpack (.mk p exps imps) inputPath tbl =
      tbl ++ addExportedComponents (getPath [some inputPath, some (p.getD "")]) exps []
          ++ (imps.map (fun child =>
                unpack child (getPath [some inputPath, some (p.getD "")]) [])).flatten := by
  simp only [unpack]
  rw [unpackList_eq_flatten, addExportedComponents_append, List.append_assoc]

/-- C2: `getPath` drops the empty and absent entries of a segment
sequence and joins the remaining segments with a slash, preserving their
order; in particular it sends two interleaved empty segments to `a/b` and
the empty sequence to the empty string. -/
theorem claim_C2_getPath :
    (∀ parts : List (Option String),
      getPath parts = String.intercalate "/" ((parts.filterMap id).filter (fun s => s ≠ ""))) ∧
    getPath [some "", some "a", some "", some "b"] = "a/b" ∧
    getPath ([] : List (Option String)) = "" := by
  refine ⟨?_, rfl, rfl⟩
  intro parts
  unfold getPath
  congr 1
  induction parts with
  | nil => rfl
  | cons p rest ih =>
    cases p with
    | none => simpa [truthy] using ih
    | some s => by_cases h : s = "" <;> simp [truthy, h, ih]

/-- C3 (counterexample): a method with no method-scoped HTTP-verb record
but a class-scope `method` record is exposed as a route, because the
metadata store's resolution falls back to class scope, so the claim's
phrase `regardless of any class-scope metadata` fails. -/
theorem claim_C3_counterexample :
    lookupMethod compClassVerb.meta "m" "method" = none ∧
    addRouteFromMethod compClassVerb "m" "" [] ≠ [] := by
  refine ⟨rfl, ?_⟩
  have h1 : addRouteFromMethod compClassVerb "m" "" [] = [⟨"get", "/", compClassVerb, "m"⟩] := rfl
  rw [h1]
  simp

/-- C3 (amended): a component method whose HTTP-verb lookup finds neither
a method-scope `method` record nor a class-scope `method` record is
skipped: the lookup is made with no default, so full absence registers no
route. -/
theorem claim_C3_no_verb_skips (c : ILitComponent) (name path : String) (tbl : RouteTable)
    (hm : lookupMethod c.meta name "method" = none)
    (hc : lookupClass c.meta "method" = none) :
    addRouteFromMethod c name path tbl = tbl := by
  simp [addRouteFromMethod, Injector.resolve, Injector.get, hm, hc, truthy, Option.orElse]

/-- Witness for C3: a component carrying no metadata at all registers no
route for its method. -/
theorem claim_C3_witness :
    addRouteFromMethod (ILitComponent.mk ["m"] (MetaTarget.mk [] []) okBody) "m" "p" [] = [] :=
  claim_C3_no_verb_skips _ "m" "p" [] rfl rfl

/-- C4: when two registrations resolve to the same verb and full path no
error is raised and the later registration wins: in general the serving
registration for a just-registered route is that registration, and in the
concrete scenario (root at path `x` exporting A, importing a child whose
component B also resolves to `GET /x`) B's handler binding is the one
that serves the route. -/
theorem claim_C4_shadowing :
    (∀ (tbl : RouteTable) (r : Route), serves (tbl ++ [r]) r.method r.path = some r) ∧
    unpack rootShadow "" [] =
      [⟨"get", "/x", compA, "handleA"⟩, ⟨"get", "/x", compB, "handleB"⟩] ∧
    serves (unpack rootShadow "" []) "get" "/x" = some ⟨"get", "/x", compB, "handleB"⟩ := by
  refine ⟨?_, rfl, rfl⟩
  intro tbl r
  simp [serves, List.filter_append]

/-- C5: the metadata store's `get` resolves an exact method-scope record
first, else the class-scope record, else the supplied default (also when
no method scope is given and no record exists at all). -/
theorem claim_C5_resolution (t : MetaTarget) (key : String) (dflt : Option String)
    (m : String) :
    (∀ v, lookupMethod t m key = some v → Injector.get t key dflt (some m) = some v) ∧
    (lookupMethod t m key = none → ∀ v, lookupClass t key = some v →
      Injector.get t key dflt (some m) = some v) ∧
    (lookupMethod t m key = none → lookupClass t key = none →
      Injector.get t key dflt (some m) = dflt) ∧
    (lookupClass t key = none → Injector.get t key dflt none = dflt) := by
  refine ⟨?_, ?_, ?_, ?_⟩
  · intro v hv; simp [Injector.get, hv, Option.orElse]
  · intro hm v hv; simp [Injector.get, hm, hv, Option.orElse]
  · intro hm hc; simp [Injector.get, hm, hc, Option.orElse]
  · intro hc; simp [Injector.get, hc, Option.orElse]

/-- Witness for C5: with class-scope `key=v1` and method-scope `key=v2`
on method `m`, `get` yields `v2` under scope `m`, `v1` under another
scope, and the default when there are no records at all. -/
theorem claim_C5_witness :
    Injector.get ⟨[("key", "v1")], [("m", "key", "v2")]⟩ "key" (some "dflt") (some "m")
        = some "v2" ∧
    Injector.get ⟨[("key", "v1")], [("m", "key", "v2")]⟩ "key" (some "dflt") (some "other")
        = some "v1" ∧
    Injector.get ⟨[], []⟩ "key" (some "dflt") none = some "dflt" := by
  refine ⟨?_, ?_, ?_⟩
  · exact (claim_C5_resolution ⟨[("key", "v1")], [("m", "key", "v2")]⟩ "key"
      (some "dflt") "m").1 "v2" rfl
  · exact (claim_C5_resolution ⟨[("key", "v1")], [("m", "key", "v2")]⟩ "key"
      (some "dflt") "other").2.1 rfl "v1" rfl
  · exact (claim_C5_resolution ⟨[], []⟩ "key" (some "dflt") "m").2.2.2 rfl

/-- C9: bootstrap is deterministic over process state: two bootstrap runs
from fresh states (empty route table) with the same module tree and
metadata produce the same sequence of route registrations, namely the
unpacking of the parent module from the empty table. -/
theorem claim_C9_bootstrap_deterministic (Parent : ILitModule) (port : String)
    (envPort : Option String) (s1 s2 : ServiceCompiler)
    (h1 : s1.routes = []) (h2 : s2.routes = []) :
    (bootstrap Parent port envPort s1).routes = (bootstrap Parent port envPort s2).routes ∧
    (bootstrap Parent port envPort s1).routes = unpack Parent "" [] := by
  have e1 : (bootstrap Parent port envPort s1).routes = unpack Parent "" s1.routes := rfl
  have e2 : (bootstrap Parent port envPort s2).routes = unpack Parent "" s2.routes := rfl
  rw [e1, e2, h1, h2]
  exact ⟨rfl, rfl⟩

/-- Witness for C9: two fresh compiler states that differ elsewhere (one
has leftover middleware) still produce identical route tables. -/
theorem claim_C9_witness :
    (bootstrap (ILitModule.mk (some "") [] []) "3000" none ⟨[], [], none⟩).routes =
      (bootstrap (ILitModule.mk (some "") [] []) "3000" none ⟨["leftover"], [], none⟩).routes :=
  (claim_C9_bootstrap_deterministic (ILitModule.mk (some "") [] []) "3000" none
    ⟨[], [], none⟩ ⟨["leftover"], [], none⟩ rfl rfl).1

end Litstack

namespace Litstack

theorem getPath_pair_opt (a : String) (o : Option String) :
    getPath [some a, o] = getPath [some a, some (o.getD "")] := by
  cases o with
  | none => simp [getPath, List.filter_cons, truthy]
  | some s => rfl

theorem joinedNonempty_cons_empty (l : List String) :
    joinedNonempty ("" :: l) = joinedNonempty l := by
  simp [joinedNonempty]

theorem getPath_pathAlong (segs : List String) (o : Option String) :
    getPath [some (pathAlong "" segs), o] = joinedNonempty (segs ++ [o.getD ""]) := by
  rw [getPath_pair_opt]
  have h : getPath [some (pathAlong "" segs), some (o.getD "")]
      = pathAlong "" (segs ++ [o.getD ""]) := by
    simp [pathAlong, List.foldl_append]
  rw [h, pathAlong_eq_joined, joinedNonempty_cons_empty]

/-- C6: for every eligible method, the registered full path is a slash
followed by the slash-joined concatenation of all non-empty path segments
from the root module down to the method's own sub-path, in root-to-leaf
order (`pathAlong "" segs` is the prefix `unpack` accumulates while
descending the module chain `segs`); in particular a method with verb
`get` and sub-path `stuff` exported from a module with path `root`
compiles to the route `GET /root/stuff`. -/
theorem claim_C6_full_path :
    (∀ (segs : List String) (c : ILitComponent) (name verb : String) (tbl : RouteTable),
      Injector.get c.meta "method" none (some name) = some verb → verb ≠ "" →
      addRouteFromMethod c name (pathAlong "" segs) tbl =
        tbl ++ [⟨verb,
          "/" ++ joinedNonempty
            (segs ++ [(Injector.get c.meta "path" none (some name)).getD ""]),
          c, name⟩]) ∧
    unpack (.mk (some "root") [compStuff] []) "" []
      = [⟨"get", "/root/stuff", compStuff, "getStuff"⟩] := by
  refine ⟨?_, rfl⟩
  intro segs c name verb tbl hv hne
  simp [addRouteFromMethod, Injector.resolve, addRoute, hv, truthy, hne, getPath_pathAlong]

/-- Witness for C6: registering `compStuff`'s method under the chain of
module segments `root` yields the route `GET /root/stuff`. -/
theorem claim_C6_witness :
    addRouteFromMethod compStuff "getStuff" (pathAlong "" ["root"]) [] =
      [⟨"get", "/" ++ joinedNonempty (["root"] ++ ["stuff"]), compStuff, "getStuff"⟩] :=
  claim_C6_full_path.1 ["root"] compStuff "getStuff" "get" [] rfl (by decide)

/-- C7: `unpack` performs no cycle detection: a walk whose reachable
graph of imports is acyclic (witnessed by a rank function decreasing
along the edges) completes within fuel `rank start + 1`; in particular a
module with an empty path and no exports or imports registers zero routes
and terminates, while a walk that reaches a node lying on an import cycle
exhausts every finite fuel, i.e. never terminates. -/
theorem claim_C7_cycles :
    (∀ (g : Nat → GraphModule) (start : Nat) (rank : Nat → Nat),
      (∀ n, Reaches g start n → ∀ m ∈ (g n).imports, rank m < rank n) →
      ∀ p t, ∃ t', unpackG (rank start + 1) g start p t = some t') ∧
    unpack (.mk (some "") [] []) "" [] = [] ∧
    (∀ (g : Nat → GraphModule) (start c : Nat),
      Reaches g start c → ImportPath g c c →
      ∀ fuel p t, unpackG fuel g start p t = none) := by
  refine ⟨?_, rfl, ?_⟩
  · intro g start rank hrank p t
    exact unpackG_succeeds g start rank hrank (rank start + 1) start (Or.inl rfl)
      (by omega) p t
  · intro g start c hr hcc fuel p t
    cases hr with
    | inl h => subst h; exact cycle_none g fuel start hcc p t
    | inr h => exact reach_cycle_none g h hcc fuel p t

/-- Witness for C7: the walk over an import-free graph completes with
fuel 1, while the walk over a graph whose node 0 imports itself returns
no result at fuel 3 (or any other fuel). -/
theorem claim_C7_witness :
    (∃ t', unpackG 1 gLeaf 0 "" [] = some t') ∧ unpackG 3 gLoop 0 "" [] = none := by
  constructor
  · exact claim_C7_cycles.1 gLeaf 0 (fun _ => 0)
      (fun n _ m hm => by simp [gLeaf] at hm) "" []
  · exact claim_C7_cycles.2.2 gLoop 0 0 (Or.inl rfl)
      (ImportPath.single (by simp [gLoop])) 3 "" []

/-- C8: the handler produced by `getHandler`, invoked with a request and
a raw response, gathers the method's response-shaping metadata via the
store's bulk lookup, wraps the raw response with that metadata into a
decorated response, invokes the original method body with the request and
the decorated response, and propagates any failure of the body
unmodified. -/
theorem claim_C8_handler (c : ILitComponent) (name : String) (req : Request)
    (res : RawResponse) :
    getHandler c name req res
      = c.body name req (HttpResponse.mk res (Injector.getAll c.meta name)) ∧
    (∀ e, c.body name req (HttpResponse.mk res (Injector.getAll c.meta name)) = .error e →
      getHandler c name req res = .error e) := by
  exact ⟨rfl, fun e h => h⟩

/-- Witness for C8: `compBoom`'s failing body makes the wrapped handler
fail with the same error, after gathering the two recorded metadata
entries. -/
theorem claim_C8_witness :
    getHandler compBoom "boom" "req" "raw" = .error "kaboom" ∧
    Injector.getAll compBoom.meta "boom" = [("status", "418"), ("contentType", "text")] :=
  ⟨(claim_C8_handler compBoom "boom" "req" "raw").2 "kaboom" rfl, rfl⟩

theorem addRouteFromMethod_slash (c : ILitComponent) (m p : String) (tbl : RouteTable)
    (h : ∀ r ∈ tbl, ∃ q, r.path = "/" ++ q) :
    ∀ r ∈ addRouteFromMethod c m p tbl, ∃ q, r.path = "/" ++ q := by
  intro r hr
  rw [addRouteFromMethod_append] at hr
  rcases List.mem_append.mp hr with h1 | h2
  · exact h r h1
  · by_cases ht : truthy (Injector.get c.meta "method" none (some m))
    · simp [addRouteFromMethod, addRoute, Injector.resolve, ht] at h2
      subst h2
      exact ⟨_, rfl⟩
    · simp [addRouteFromMethod, Injector.resolve, ht] at h2

theorem foldl_pres {α : Type} (P : RouteTable → Prop) (f : α → RouteTable → RouteTable)
    (hf : ∀ a t, P t → P (f a t)) :
    ∀ (l : List α) (tbl : RouteTable), P tbl → P (l.foldl (fun t a => f a t) tbl)
  | [], _, h => h
  | a :: l, tbl, h => foldl_pres P f hf l (f a tbl) (hf a tbl h)

theorem addExportedComponents_slash (path : String) (cs : List ILitComponent)
    (tbl : RouteTable) (h : ∀ r ∈ tbl, ∃ q, r.path = "/" ++ q) :
    ∀ r ∈ addExportedComponents path cs tbl, ∃ q, r.path = "/" ++ q :=
  foldl_pres (fun t => ∀ r ∈ t, ∃ q, r.path = "/" ++ q)
    (fun c t => (getMethodList c).foldl (fun t' m => addRouteFromMethod c m path t') t)
    (fun c t hP =>
      foldl_pres (fun t0 => ∀ r ∈ t0, ∃ q, r.path = "/" ++ q)
        (fun m t0 => addRouteFromMethod c m path t0)
        (fun m t0 h0 => addRouteFromMethod_slash c m path t0 h0)
        (getMethodList c) t hP)
    cs tbl h

mutual

theorem unpack_slash : ∀ (m : ILitModule) (input : String) (tbl : RouteTable),
    (∀ r ∈ tbl, ∃ q, r.path = "/" ++ q) →
    ∀ r ∈ unpack m input tbl, ∃ q, r.path = "/" ++ q
  | .mk p exps imps, input, tbl, h =>
    unpackList_slash imps (getPath [some input, some (p.getD "")])
      (addExportedComponents (getPath [some input, some (p.getD "")]) exps tbl)
      (addExportedComponents_slash _ exps tbl h)

theorem unpackList_slash : ∀ (ms : List ILitModule) (path : String) (tbl : RouteTable),
    (∀ r ∈ tbl, ∃ q, r.path = "/" ++ q) →
    ∀ r ∈ unpackList ms path tbl, ∃ q, r.path = "/" ++ q
  | [], _, _, h => h
  | child :: rest, path, tbl, h =>
    unpackList_slash rest path (unpack child path tbl) (unpack_slash child path tbl h)

end

/-- C10: every route registration passes the server facade a path that
begins with a slash, and an eligible method whose module paths and
sub-path are all empty or absent is registered at exactly the root path
slash. -/
theorem claim_C10_leading_slash :
    (∀ (m : ILitModule) (input : String), ∀ r ∈ unpack m input [],
      ∃ q, r.path = "/" ++ q) ∧
    unpack (.mk none [compBare] []) "" [] = [⟨"get", "/", compBare, "m"⟩] := by
  refine ⟨?_, rfl⟩
  intro m input
  exact unpack_slash m input [] (by simp)

/-- Witness for C10: the single route of the all-empty-paths module has a
path beginning with a slash. -/
theorem claim_C10_witness :
    ∃ q, (Route.mk "get" "/" compBare "m").path = "/" ++ q := by
  apply claim_C10_leading_slash.1 (ILitModule.mk none [compBare] []) ""
  have h : unpack (ILitModule.mk none [compBare] []) "" []
      = [Route.mk "get" "/" compBare "m"] := rfl
  rw [h]
  simp

end Litstack
